import Mathlib

/-!
Verification of the barcode clustering program (`cluster.py`).

The program groups genomic positions parsed from a BAM stream into
clusters keyed by barcode strings extracted from read names with the
regular expression built as `"::"` followed by N copies of `\[(\w+)\]`,
then serializes the table as one tab-separated line per barcode key.

The embedding below mirrors the source: Python `set` becomes a
duplicate-free insertion list, the `dict` becomes an association list,
fallible operations (string concatenation with `None`, `match.groups()`
on a failed search, `del` on a missing key) return `Option`/`Except`.
-/

namespace Barcoding

/-- Python exception kinds raised by the program. -/
inductive PyError where
  | attributeError
  | typeError
  | keyError
  deriving DecidableEq, Repr

/-- `\w` of Python 2 `re` without `re.UNICODE`: ASCII alphanumerics and
underscore. -/
def isWordChar (c : Char) : Bool :=
  c.isAlphanum || c == '_'

/-- Greedy run of word characters: models the maximal munch of `\w+`
(backtracking to a shorter run is impossible here because the pattern
requires a non-word `]` immediately after the group). -/
def takeWord : List Char → List Char × List Char
  | [] => ([], [])
  | c :: cs =>
    if isWordChar c then
      let p := takeWord cs
      (c :: p.1, p.2)
    else ([], c :: cs)

/-- Match one `\[(\w+)\]` group at the head of the input, returning the
captured word run and the remainder. -/
def readGroup (s : List Char) : Option (List Char × List Char) :=
  match s with
  | '[' :: rest =>
    match takeWord rest with
    | ([], _) => none
    | (c :: w, ']' :: r2) => some (c :: w, r2)
    | (_ :: _, _) => none
  | _ => none

/-- Match `n` copies of `\[(\w+)\]` at the head of the input, returning
the captured groups and the remainder. -/
def matchGroups : Nat → List Char → Option (List (List Char) × List Char)
  | 0, s => some ([], s)
  | n + 1, s =>
    (readGroup s).bind (fun p =>
      (matchGroups n p.2).map (fun q => (p.1 :: q.1, q.2)))

/-- Match the whole barcode pattern anchored at the head of the input,
two colons then `n` bracketed groups, returning the captured groups. -/
def matchAt (n : Nat) (s : List Char) : Option (List (List Char)) :=
  match s with
  | c1 :: c2 :: rest =>
    if c1 == ':' && c2 == ':' then (matchGroups n rest).map Prod.fst
    else none
  | _ => none

/-- `re.search`: try the pattern at every position, leftmost first. -/
def searchGroups (n : Nat) : List Char → Option (List (List Char))
  | [] => none
  | c :: cs =>
    match matchAt n (c :: cs) with
    | some gs => some gs
    | none => searchGroups n cs

/-- `".".join(match.groups())` for a successful search of the barcode
pattern in a read name; `none` when `re.search` reports no match. -/
def extractKey (n : Nat) (name : String) : Option String :=
  (searchGroups n name.data).map
    (fun gs => String.intercalate "." (gs.map (fun g => String.mk g)))

/-- A genomic position; `chromosome` is `none` when the record is
unmapped (`read.reference_name` is Python `None`). -/
structure Position where
  chromosome : Option String
  coordinate : Int
  deriving DecidableEq, Repr

/-- `Position.__eq__`: field-wise comparison. -/
def Position.py_eq (p q : Position) : Bool :=
  p.chromosome == q.chromosome && p.coordinate == q.coordinate

/-- `Position.__hash__`: `hash((self._chromosome, self._coordinate))`, a
deterministic function of the two fields. -/
def Position.py_hash (p : Position) : UInt64 :=
  hash (p.chromosome, p.coordinate)

/-- `Position.to_string`: `self._chromosome + ":" + str(self._coordinate)`.
Concatenating Python `None` with a string raises `TypeError`, so the
result is `none` when the chromosome is absent. -/
def Position.to_string (p : Position) : Option String :=
  match p.chromosome with
  | none => none
  | some c => some (c ++ ":" ++ toString p.coordinate)

/-- `Option`-propagating map over a list: models a Python list
comprehension or generator in which the body may raise. -/
def mapMo {α β : Type} (f : α → Option β) : List α → Option (List β)
  | [] => some []
  | a :: l =>
    match f a with
    | none => none
    | some b => (mapMo f l).map (fun r => b :: r)

/-- A barcoding cluster: the Python `set` of positions, modelled as the
duplicate-free list of elements in insertion order. -/
structure Cluster where
  positions : List Position
  deriving DecidableEq, Repr

def Cluster.empty : Cluster := ⟨[]⟩

/-- `Cluster.add_position`: set insertion, a no-op on duplicates. -/
def Cluster.add_position (c : Cluster) (p : Position) : Cluster :=
  if p ∈ c.positions then c else ⟨c.positions ++ [p]⟩

/-- `Cluster.size`: `len(self._positions)`. -/
def Cluster.size (c : Cluster) : Nat :=
  c.positions.length

/-- `Cluster.to_string`: `"\t".join(position_strings)`; faults when any
contained position fails to render. -/
def Cluster.to_string (c : Cluster) : Option String :=
  (mapMo Position.to_string c.positions).map
    (fun l => String.intercalate "\t" l)

/-- The `Clusters` table: the Python `dict` from barcode key to cluster,
modelled as an association list in insertion order. -/
structure Clusters where
  clusters : List (String × Cluster)
  deriving DecidableEq, Repr

def Clusters.empty : Clusters := ⟨[]⟩

/-- `Clusters.get_cluster`: return the existing cluster, or create,
store and return an empty one.  State-passing form: the result pairs the
returned cluster with the (possibly extended) table. -/
def Clusters.get_cluster (t : Clusters) (k : String) : Cluster × Clusters :=
  match t.clusters.lookup k with
  | some c => (c, t)
  | none => (Cluster.empty, ⟨t.clusters ++ [(k, Cluster.empty)]⟩)

/-- Mutation of the cluster stored under `k` (Python mutates the shared
instance returned by `get_cluster`). -/
def updateEntry (l : List (String × Cluster)) (k : String) (p : Position) :
    List (String × Cluster) :=
  l.map (fun e => if e.1 == k then (e.1, e.2.add_position p) else e)

/-- `Clusters.add_position`: `get_cluster(barcodes).add_position(position)`. -/
def Clusters.add_position (t : Clusters) (k : String) (p : Position) : Clusters :=
  ⟨updateEntry (t.get_cluster k).2.clusters k p⟩

/-- One line of `Clusters.to_strings`: `barcodes + "\t" + cluster.to_string()`. -/
def lineOf (e : String × Cluster) : Option String :=
  (e.2.to_string).map (fun s => e.1 ++ "\t" ++ s)

/-- `Clusters.to_strings`: the generator over rendered lines; faults when
any cluster fails to render. -/
def Clusters.to_strings (t : Clusters) : Option (List String) :=
  mapMo lineOf t.clusters

/-- `Clusters.remove_cluster`: `del self._clusters[barcodes]`, which
raises `KeyError` when the key is absent. -/
def Clusters.remove_cluster (t : Clusters) (k : String) : Except PyError Clusters :=
  match t.clusters.lookup k with
  | some _ => Except.ok ⟨t.clusters.filter (fun e => !(e.1 == k))⟩
  | none => Except.error PyError.keyError

/-- One BAM record as the pipeline reads it. -/
structure BamRecord where
  reference_name : Option String
  reference_start : Int
  query_name : String
  deriving DecidableEq, Repr

/-- The loop body of `get_clusters`: build the position, search the
barcode pattern in the query name, and insert.  When the search fails,
`match.groups()` is an attribute access on `None`: `AttributeError`. -/
def processRecord (n : Nat) (t : Clusters) (r : BamRecord) :
    Except PyError Clusters :=
  let position : Position := ⟨r.reference_name, r.reference_start⟩
  match searchGroups n r.query_name.data with
  | none => Except.error PyError.attributeError
  | some gs =>
      Except.ok (t.add_position
        (String.intercalate "." (gs.map (fun g => String.mk g))) position)

/-- The `for read in f.fetch(...)` loop of `get_clusters`, threading the
table through the stream and stopping at the first raised exception. -/
def runRecords (n : Nat) (t : Clusters) : List BamRecord → Except PyError Clusters
  | [] => Except.ok t
  | r :: rest =>
    match processRecord n t r with
    | Except.error e => Except.error e
    | Except.ok t2 => runRecords n t2 rest

/-- `get_clusters`: run the loop over the record stream starting from an
empty table. -/
def get_clusters (n : Nat) (recs : List BamRecord) : Except PyError Clusters :=
  runRecords n Clusters.empty recs

/-- `write_clusters_to_file`: each rendered line followed by a newline. -/
def write_clusters_to_file (t : Clusters) : Option String :=
  (t.to_strings).map (fun lines => String.join (lines.map (fun l => l ++ "\n")))

/-! Association-list lookup lemmas shared by the table proofs. -/

section LookupLemmas

variable {β : Type}

theorem lookup_cons_self (a : String) (b : β) (l : List (String × β)) :
    ((a, b) :: l).lookup a = some b := by
  simp [List.lookup]

theorem lookup_cons_ne (a k : String) (b : β) (l : List (String × β))
    (hk : k ≠ a) : ((a, b) :: l).lookup k = l.lookup k := by
  have hba : (k == a) = false := beq_eq_false_iff_ne.mpr hk
  simp [List.lookup, hba]

theorem lookup_append_of_none (l1 l2 : List (String × β)) (k : String)
    (h : l1.lookup k = none) : (l1 ++ l2).lookup k = l2.lookup k := by
  induction l1 with
  | nil => simp
  | cons e l ih =>
    obtain ⟨a, b⟩ := e
    by_cases hk : k = a
    · subst hk
      rw [lookup_cons_self] at h
      exact absurd h (by simp)
    · rw [lookup_cons_ne _ _ _ _ hk] at h
      rw [List.cons_append, lookup_cons_ne _ _ _ _ hk]
      exact ih h

theorem lookup_none_forall (l : List (String × β)) (k : String)
    (h : l.lookup k = none) : ∀ e ∈ l, e.1 ≠ k := by
  induction l with
  | nil => simp
  | cons e l ih =>
    obtain ⟨a, b⟩ := e
    by_cases hk : k = a
    · subst hk
      rw [lookup_cons_self] at h
      exact absurd h (by simp)
    · rw [lookup_cons_ne _ _ _ _ hk] at h
      intro e he
      rcases List.mem_cons.mp he with rfl | he2
      · exact fun hc => hk hc.symm
      · exact ih h e he2

theorem lookup_mem (l : List (String × β)) (k : String) (c : β)
    (h : l.lookup k = some c) : (k, c) ∈ l := by
  induction l with
  | nil => simp [List.lookup] at h
  | cons e l ih =>
    obtain ⟨a, b⟩ := e
    by_cases hk : k = a
    · subst hk
      rw [lookup_cons_self] at h
      obtain rfl : b = c := Option.some.inj h
      exact List.mem_cons_self _ _
    · rw [lookup_cons_ne _ _ _ _ hk] at h
      exact List.mem_cons_of_mem _ (ih h)

theorem lookup_filter_self (l : List (String × β)) (k : String) :
    (l.filter (fun e => !(e.1 == k))).lookup k = none := by
  induction l with
  | nil => simp
  | cons e l ih =>
    obtain ⟨a, b⟩ := e
    by_cases hk : a = k
    · subst hk
      simpa using ih
    · have hba : (a == k) = false := beq_eq_false_iff_ne.mpr hk
      rw [List.filter_cons, if_pos (by simp [hba])]
      rw [lookup_cons_ne _ _ _ _ (fun hc => hk hc.symm)]
      exact ih

theorem lookup_filter_ne (l : List (String × β)) (k k2 : String) (hne : k2 ≠ k) :
    (l.filter (fun e => !(e.1 == k))).lookup k2 = l.lookup k2 := by
  induction l with
  | nil => simp
  | cons e l ih =>
    obtain ⟨a, b⟩ := e
    rw [List.filter_cons]
    by_cases hk : a = k
    · subst hk
      rw [if_neg (by simp)]
      rw [ih, lookup_cons_ne _ _ _ _ hne]
    · have hba : (a == k) = false := beq_eq_false_iff_ne.mpr hk
      rw [if_pos (by simp [hba])]
      by_cases hk2 : k2 = a
      · subst hk2
        rw [lookup_cons_self, lookup_cons_self]
      · rw [lookup_cons_ne _ _ _ _ hk2, lookup_cons_ne _ _ _ _ hk2]
        exact ih

end LookupLemmas

/-! Claim C1: end-to-end pipeline on three concrete records. -/

/-- C1: running the pipeline with N=2 on the stream (chr1,100,"r1::[AA][BB]"),
(chr1,100,"r2::[AA][BB]"), (chr2,50,"r3::[CC][DD]") produces exactly two
output lines: one for key "AA.BB" whose only position field is "chr1:100"
(the duplicate position collapses to one field), and one for key "CC.DD"
whose only position field is "chr2:50". -/
theorem C1_pipeline_three_records_two_lines :
    ∃ tbl : Clusters,
      get_clusters 2
        [⟨some "chr1", 100, "r1::[AA][BB]"⟩,
         ⟨some "chr1", 100, "r2::[AA][BB]"⟩,
         ⟨some "chr2", 50, "r3::[CC][DD]"⟩] = Except.ok tbl ∧
      tbl.to_strings = some ["AA.BB\tchr1:100", "CC.DD\tchr2:50"] :=
  ⟨⟨[("AA.BB", ⟨[⟨some "chr1", 100⟩]⟩), ("CC.DD", ⟨[⟨some "chr2", 50⟩]⟩)]⟩,
    rfl, rfl⟩

/-! Claim C2: a query name in which the pattern is not found. -/

/-- C2: when the barcode pattern is not found in a query name, the search
returns the explicit no-match signal (`none`, Python `None`), and the
record-processing step fails with an `AttributeError` (from calling
`.groups()` on `None`) instead of proceeding with partial data; the whole
run fails at that record. -/
theorem C2_no_match_means_error (n : Nat) (r : BamRecord)
    (h : searchGroups n r.query_name.data = none) :
    (∀ t : Clusters, processRecord n t r = Except.error PyError.attributeError) ∧
    ∀ (t : Clusters) (rest : List BamRecord),
      runRecords n t (r :: rest) = Except.error PyError.attributeError := by
  constructor
  · intro t
    simp [processRecord, h]
  · intro t rest
    simp [runRecords, processRecord, h]

/-- Witness for C2: the name "readA" (no double colon) with N=2. -/
theorem C2_no_match_means_error_witness :
    searchGroups 2 (String.data "readA") = none ∧
    get_clusters 2 [⟨some "chr1", 0, "readA"⟩] = Except.error PyError.attributeError := by
  refine ⟨rfl, ?_⟩
  exact (C2_no_match_means_error 2 ⟨some "chr1", 0, "readA"⟩ rfl).2 Clusters.empty []

/-! Claim C4: Position equality and hash consistency. -/

/-- C4: two positions are equal exactly when their chromosome fields and
coordinates are equal; equal positions have equal hashes; and positions
differing in either field are unequal. -/
theorem C4_position_equality_hash (p q : Position) :
    (p.py_eq q = true ↔ p.chromosome = q.chromosome ∧ p.coordinate = q.coordinate) ∧
    (p.py_eq q = true → p.py_hash = q.py_hash) ∧
    ((p.chromosome ≠ q.chromosome ∨ p.coordinate ≠ q.coordinate) → p.py_eq q = false) := by
  have hiff : p.py_eq q = true ↔
      p.chromosome = q.chromosome ∧ p.coordinate = q.coordinate := by
    simp [Position.py_eq]
  refine ⟨hiff, ?_, ?_⟩
  · intro h
    obtain ⟨h1, h2⟩ := hiff.mp h
    simp [Position.py_hash, h1, h2]
  · intro h
    cases hb : p.py_eq q with
    | false => rfl
    | true =>
      exfalso
      obtain ⟨h1, h2⟩ := hiff.mp hb
      rcases h with h | h
      · exact h h1
      · exact h h2

/-- Witness for C4 at concrete positions. -/
theorem C4_position_equality_hash_witness :
    Position.py_eq ⟨some "chr1", 100⟩ ⟨some "chr1", 100⟩ = true ∧
    Position.py_hash ⟨some "chr1", 100⟩ = Position.py_hash ⟨some "chr1", 100⟩ ∧
    Position.py_eq ⟨some "chr1", 100⟩ ⟨some "chr2", 100⟩ = false := by
  refine ⟨?_, ?_, ?_⟩
  · exact (C4_position_equality_hash ⟨some "chr1", 100⟩ ⟨some "chr1", 100⟩).1.mpr ⟨rfl, rfl⟩
  · exact (C4_position_equality_hash ⟨some "chr1", 100⟩ ⟨some "chr1", 100⟩).2.1 (by decide)
  · exact (C4_position_equality_hash ⟨some "chr1", 100⟩ ⟨some "chr2", 100⟩).2.2
      (Or.inl (by decide))

/-! Claim C6: lazy creation in `get_cluster`. -/

/-- C6: `get_cluster` returns the stored cluster when the key is present;
otherwise it stores one empty cluster under the key and returns it; a
second call returns the same cluster and leaves the table unchanged; and
key uniqueness is preserved, so the table never holds two entries for the
same key. -/
theorem C6_get_cluster_lazy_creation (t : Clusters) (k : String) :
    (∀ c, t.clusters.lookup k = some c → t.get_cluster k = (c, t)) ∧
    (t.clusters.lookup k = none →
      t.get_cluster k = (Cluster.empty, ⟨t.clusters ++ [(k, Cluster.empty)]⟩) ∧
      (t.get_cluster k).2.clusters.lookup k = some Cluster.empty) ∧
    ((t.get_cluster k).2.get_cluster k =
      ((t.get_cluster k).1, (t.get_cluster k).2)) ∧
    ((t.clusters.map Prod.fst).Nodup →
      ((t.get_cluster k).2.clusters.map Prod.fst).Nodup) := by
  refine ⟨?_, ?_, ?_, ?_⟩
  · intro c h
    simp [Clusters.get_cluster, h]
  · intro h
    refine ⟨by simp [Clusters.get_cluster, h], ?_⟩
    simp only [Clusters.get_cluster, h]
    rw [lookup_append_of_none _ _ _ h]
    exact lookup_cons_self _ _ _
  · cases hl : t.clusters.lookup k with
    | some c => simp [Clusters.get_cluster, hl]
    | none =>
      have h2 : ((⟨t.clusters ++ [(k, Cluster.empty)]⟩ : Clusters)).clusters.lookup k =
          some Cluster.empty := by
        rw [lookup_append_of_none _ _ _ hl]
        exact lookup_cons_self _ _ _
      simp [Clusters.get_cluster, hl, h2]
  · intro hnd
    cases hl : t.clusters.lookup k with
    | some c => simpa [Clusters.get_cluster, hl] using hnd
    | none =>
      simp only [Clusters.get_cluster, hl]
      rw [List.map_append]
      refine List.Nodup.append hnd (by simp) ?_
      intro a ha hb
      obtain rfl : a = k := by simpa using hb
      obtain ⟨e, he, rfl⟩ := List.mem_map.mp ha
      exact lookup_none_forall _ _ hl e he rfl

/-- Witness for C6 on the empty table and the key "AA.BB". -/
theorem C6_get_cluster_lazy_creation_witness :
    (Clusters.empty.get_cluster "AA.BB").2.clusters.lookup "AA.BB" =
      some Cluster.empty ∧
    (Clusters.empty.get_cluster "AA.BB").2.get_cluster "AA.BB" =
      ((Clusters.empty.get_cluster "AA.BB").1,
        (Clusters.empty.get_cluster "AA.BB").2) ∧
    ((Clusters.empty.get_cluster "AA.BB").2.clusters.map Prod.fst).Nodup := by
  refine ⟨((C6_get_cluster_lazy_creation Clusters.empty "AA.BB").2.1 rfl).2,
    (C6_get_cluster_lazy_creation Clusters.empty "AA.BB").2.2.1,
    (C6_get_cluster_lazy_creation Clusters.empty "AA.BB").2.2.2 (by simp [Clusters.empty])⟩

/-! Claim C7: removal semantics. -/

/-- C7: `remove_cluster` on a present key deletes exactly that entry
(afterwards the key is absent and every other key looks up unchanged),
and on an absent key fails with `KeyError`, producing no new table. -/
theorem C7_remove_cluster_semantics (t : Clusters) (k : String) :
    (t.clusters.lookup k = none →
      t.remove_cluster k = Except.error PyError.keyError) ∧
    (∀ c, t.clusters.lookup k = some c →
      ∃ t2, t.remove_cluster k = Except.ok t2 ∧
        t2.clusters.lookup k = none ∧
        ∀ k2, k2 ≠ k → t2.clusters.lookup k2 = t.clusters.lookup k2) := by
  constructor
  · intro h
    simp [Clusters.remove_cluster, h]
  · intro c h
    refine ⟨⟨t.clusters.filter (fun e => !(e.1 == k))⟩,
      by simp [Clusters.remove_cluster, h], ?_, ?_⟩
    · exact lookup_filter_self _ _
    · intro k2 hk2
      exact lookup_filter_ne _ _ _ hk2

/-- Witness for C7: removing "AA.BB" from a missing-key table errors, and
from a one-entry table deletes the entry. -/
theorem C7_remove_cluster_semantics_witness :
    Clusters.empty.remove_cluster "AA.BB" = Except.error PyError.keyError ∧
    ∃ t2, (⟨[("AA.BB", Cluster.empty)]⟩ : Clusters).remove_cluster "AA.BB" =
        Except.ok t2 ∧
      t2.clusters.lookup "AA.BB" = none := by
  refine ⟨(C7_remove_cluster_semantics Clusters.empty "AA.BB").1 rfl, ?_⟩
  obtain ⟨t2, h1, h2, -⟩ :=
    (C7_remove_cluster_semantics ⟨[("AA.BB", Cluster.empty)]⟩ "AA.BB").2
      Cluster.empty (by decide)
  exact ⟨t2, h1, h2⟩

/-! Claim C5: cluster size counts distinct positions. -/


/-- Membership after a set insertion. -/
theorem mem_add_position (c : Cluster) (p x : Position) :
    x ∈ (c.add_position p).positions ↔ x ∈ c.positions ∨ x = p := by
  unfold Cluster.add_position
  by_cases h : p ∈ c.positions
  · rw [if_pos h]
    constructor
    · exact Or.inl
    · rintro (hx | rfl)
      · exact hx
      · exact h
  · rw [if_neg h]
    simp

/-- Set insertion preserves duplicate-freeness. -/
theorem nodup_add_position (c : Cluster) (p : Position) (h : c.positions.Nodup) :
    (c.add_position p).positions.Nodup := by
  unfold Cluster.add_position
  by_cases hp : p ∈ c.positions
  · rw [if_pos hp]
    exact h
  · rw [if_neg hp]
    refine h.append (List.nodup_singleton p) ?_
    intro a ha hb
    rw [List.mem_singleton] at hb
    subst hb
    exact hp ha

/-- Membership after a sequence of insertions. -/
theorem mem_foldl_add (ps : List Position) (c : Cluster) (x : Position) :
    x ∈ (ps.foldl Cluster.add_position c).positions ↔ x ∈ c.positions ∨ x ∈ ps := by
  induction ps generalizing c with
  | nil => simp
  | cons p ps ih =>
    rw [List.foldl_cons, ih, mem_add_position]
    simp only [List.mem_cons]
    tauto

/-- A cluster built by insertions is duplicate-free. -/
theorem nodup_foldl_add (ps : List Position) (c : Cluster) (h : c.positions.Nodup) :
    (ps.foldl Cluster.add_position c).positions.Nodup := by
  induction ps generalizing c with
  | nil => exact h
  | cons p ps ih => exact ih _ (nodup_add_position _ _ h)

/-- C5: after any sequence of insertions into an initially empty cluster,
`size` equals the number of distinct (chromosome, coordinate) pairs in
the sequence; the right-hand side is a finite set cardinal, so the count
is independent of duplicate insertions and of insertion order. -/
theorem C5_cluster_size_distinct (ps : List Position) :
    (ps.foldl Cluster.add_position Cluster.empty).size =
      (ps.map (fun p => (p.chromosome, p.coordinate))).toFinset.card := by
  have hinj : Function.Injective (fun p : Position => (p.chromosome, p.coordinate)) := by
    intro a b h
    cases a
    cases b
    simpa using h
  have hnd : (ps.foldl Cluster.add_position Cluster.empty).positions.Nodup :=
    nodup_foldl_add ps Cluster.empty List.nodup_nil
  have hmem : ∀ x, x ∈ (ps.foldl Cluster.add_position Cluster.empty).positions ↔ x ∈ ps := by
    intro x
    rw [mem_foldl_add]
    simp [Cluster.empty]
  have hfin : (ps.map (fun p => (p.chromosome, p.coordinate))).toFinset =
      ((ps.foldl Cluster.add_position Cluster.empty).positions.map
        (fun p => (p.chromosome, p.coordinate))).toFinset := by
    ext x
    simp only [List.mem_toFinset, List.mem_map]
    constructor
    · rintro ⟨p, hp, rfl⟩
      exact ⟨p, (hmem p).mpr hp, rfl⟩
    · rintro ⟨p, hp, rfl⟩
      exact ⟨p, (hmem p).mp hp, rfl⟩
  rw [hfin, List.toFinset_card_of_nodup (hnd.map hinj), List.length_map]
  rfl

/-! Claim C8: rendering is stable as a multiset of lines. -/

/-- Success of an `Option`-propagating map is membership-determined. -/
theorem mapMo_isSome_iff {α β : Type} (f : α → Option β) (l : List α) :
    (mapMo f l).isSome ↔ ∀ a ∈ l, (f a).isSome := by
  induction l with
  | nil => simp [mapMo]
  | cons a l ih =>
    cases hfa : f a with
    | none => simp [mapMo, hfa]
    | some b => simp [mapMo, hfa, ih]

/-- Permuting the input of a successful `Option`-propagating map permutes
its output. -/
theorem mapMo_perm {α β : Type} (f : α → Option β) {l1 l2 : List α}
    (hp : l1.Perm l2) :
    ∀ {r1 r2 : List β}, mapMo f l1 = some r1 → mapMo f l2 = some r2 → r1.Perm r2 := by
  induction hp with
  | nil =>
    intro r1 r2 h1 h2
    simp [mapMo] at h1 h2
    subst h1
    subst h2
    exact List.Perm.refl _
  | cons a p ih =>
    intro r1 r2 h1 h2
    cases hfa : f a with
    | none => simp [mapMo, hfa] at h1
    | some b =>
      simp only [mapMo, hfa] at h1 h2
      obtain ⟨r1t, hr1, rfl⟩ := Option.map_eq_some'.mp h1
      obtain ⟨r2t, hr2, rfl⟩ := Option.map_eq_some'.mp h2
      exact List.Perm.cons b (ih hr1 hr2)
  | swap a b l =>
    intro r1 r2 h1 h2
    cases hfb : f b with
    | none => simp [mapMo, hfb] at h1
    | some vb =>
      cases hfa : f a with
      | none => simp [mapMo, hfa, hfb] at h1
      | some va =>
        simp only [mapMo, hfa, hfb] at h1 h2
        cases hml : mapMo f l with
        | none => rw [hml] at h1; simp at h1
        | some rt =>
          rw [hml] at h1 h2
          simp at h1 h2
          subst h1
          subst h2
          exact List.Perm.swap va vb rt
  | trans p1 p2 ih1 ih2 =>
    intro r1 r2 h1 h2
    rename_i la lb lc
    have hm : (mapMo f lb).isSome := by
      rw [mapMo_isSome_iff]
      intro x hx
      exact (mapMo_isSome_iff f la).mp (by rw [h1]; rfl) x (p1.mem_iff.mpr hx)
    obtain ⟨rm, hrm⟩ := Option.isSome_iff_exists.mp hm
    exact (ih1 h1 hrm).trans (ih2 hrm h2)

/-- C8: rendering the same unmodified table twice yields the same
multiset of lines; the two invocations may enumerate the unordered dict
in different orders, modelled as any two permutations of the entry list,
and still produce equal line multisets. -/
theorem C8_render_multiset_stable (t1 t2 : Clusters) (l1 l2 : List String)
    (hp : t1.clusters.Perm t2.clusters)
    (h1 : t1.to_strings = some l1) (h2 : t2.to_strings = some l2) :
    (l1 : Multiset String) = (l2 : Multiset String) :=
  Multiset.coe_eq_coe.mpr (mapMo_perm lineOf hp h1 h2)

/-- Witness for C8 on a one-entry table. -/
theorem C8_render_multiset_stable_witness :
    Clusters.to_strings ⟨[("AA.BB", ⟨[⟨some "chr1", 100⟩]⟩)]⟩ = some ["AA.BB\tchr1:100"] ∧
    ((["AA.BB\tchr1:100"] : List String) : Multiset String) =
      ((["AA.BB\tchr1:100"] : List String) : Multiset String) := by
  refine ⟨rfl, ?_⟩
  exact C8_render_multiset_stable ⟨[("AA.BB", ⟨[⟨some "chr1", 100⟩]⟩)]⟩
    ⟨[("AA.BB", ⟨[⟨some "chr1", 100⟩]⟩)]⟩ _ _ (List.Perm.refl _) rfl rfl

/-! Claim C10: empty clusters are serialized. -/

/-- Each successfully rendered element appears in the output of a
successful `Option`-propagating map. -/
theorem mapMo_mem_some {α β : Type} (f : α → Option β) {l : List α} {r : List β}
    (h : mapMo f l = some r) {a : α} (ha : a ∈ l) {b : β} (hb : f a = some b) :
    b ∈ r := by
  induction l generalizing r with
  | nil => simp at ha
  | cons x l ih =>
    rcases List.mem_cons.mp ha with rfl | ha2
    · simp only [mapMo, hb] at h
      obtain ⟨rt, hrt, rfl⟩ := Option.map_eq_some'.mp h
      exact List.mem_cons_self _ _
    · cases hfx : f x with
      | none => simp [mapMo, hfx] at h
      | some bx =>
        simp only [mapMo, hfx] at h
        obtain ⟨rt, hrt, rfl⟩ := Option.map_eq_some'.mp h
        exact List.mem_cons_of_mem _ (ih hrt ha2)

/-- An empty cluster renders as the key, a tab, and nothing after it. -/
theorem empty_cluster_line (k : String) :
    lineOf (k, Cluster.empty) = some (k ++ "\t") := by
  simp only [lineOf, Cluster.empty, Cluster.to_string, mapMo, Option.map_some']
  show some (k ++ "\t" ++ String.intercalate "\t" []) = some (k ++ "\t")
  rw [show String.intercalate "\t" [] = "" from rfl, String.append_empty]

/-- C10: a key mapped to an empty cluster still gets an output line,
consisting of the key followed by a tab and an empty position list;
empty clusters are not skipped during serialization. -/
theorem C10_empty_cluster_rendered (t : Clusters) (k : String) (l : List String)
    (hk : t.clusters.lookup k = some Cluster.empty)
    (hl : t.to_strings = some l) :
    (k ++ "\t") ∈ l :=
  mapMo_mem_some lineOf hl (lookup_mem _ _ _ hk) (empty_cluster_line k)

/-- Witness for C10 on a table holding one empty cluster. -/
theorem C10_empty_cluster_rendered_witness :
    Clusters.to_strings ⟨[("AA.BB", Cluster.empty)]⟩ = some ["AA.BB\t"] ∧
    ("AA.BB\t" : String) ∈ ["AA.BB\t"] := by
  refine ⟨rfl, ?_⟩
  exact C10_empty_cluster_rendered ⟨[("AA.BB", Cluster.empty)]⟩ "AA.BB" ["AA.BB\t"]
    (by rfl) (by rfl)

/-! Claim C3: extraction on well-formed names. -/

/-- The bracketed encoding of a list of barcode strings: each group
wrapped in square brackets, concatenated. -/
def encodeGroups (gs : List (List Char)) : List Char :=
  gs.foldr (fun g acc => '[' :: (g ++ ']' :: acc)) []

/-- The greedy word run over an encoded group stops exactly at the
closing bracket. -/
theorem takeWord_word_run (g r : List Char)
    (hg : ∀ c ∈ g, isWordChar c = true) :
    takeWord (g ++ ']' :: r) = (g, ']' :: r) := by
  induction g with
  | nil =>
    have hb : isWordChar ']' = false := rfl
    simp [takeWord, hb]
  | cons c g ih =>
    have hc : isWordChar c = true := hg c (List.mem_cons_self _ _)
    simp [takeWord, hc, ih (fun c2 hc2 => hg c2 (List.mem_cons_of_mem _ hc2))]

/-- A well-formed encoded group parses back to itself. -/
theorem readGroup_encode (g r : List Char) (hne : g ≠ [])
    (hg : ∀ c ∈ g, isWordChar c = true) :
    readGroup ('[' :: (g ++ ']' :: r)) = some (g, r) := by
  cases g with
  | nil => exact absurd rfl hne
  | cons c w =>
    have ht : takeWord (c :: (w ++ ']' :: r)) = (c :: w, ']' :: r) := by
      have h2 := takeWord_word_run (c :: w) r hg
      simpa using h2
    simp [readGroup, ht]

/-- A well-formed bracketed encoding of `n` groups matches the `n`-group
pattern exactly, leaving the suffix untouched. -/
theorem matchGroups_encode (gs : List (List Char)) (suff : List Char)
    (hgs : ∀ g ∈ gs, g ≠ [] ∧ ∀ c ∈ g, isWordChar c = true) :
    matchGroups gs.length (encodeGroups gs ++ suff) = some (gs, suff) := by
  induction gs with
  | nil => simp [matchGroups, encodeGroups]
  | cons g gs ih =>
    obtain ⟨hne, hw⟩ := hgs g (List.mem_cons_self _ _)
    have ih2 := ih (fun g2 hg2 => hgs g2 (List.mem_cons_of_mem _ hg2))
    have henc : encodeGroups (g :: gs) ++ suff =
        '[' :: (g ++ ']' :: (encodeGroups gs ++ suff)) := by
      simp [encodeGroups]
    rw [List.length_cons, henc]
    simp only [matchGroups]
    rw [readGroup_encode _ _ hne hw]
    simp [ih2]

/-- Anchored match on a string starting with the double colon. -/
theorem matchAt_colons (n : Nat) (rest : List Char) :
    matchAt n (':' :: ':' :: rest) = (matchGroups n rest).map Prod.fst := by
  simp [matchAt]

/-- The unanchored search succeeds whenever the pattern matches at some
position. -/
theorem searchGroups_of_matchAt (n : Nat) (pre rest : List Char)
    (gs : List (List Char)) (h : matchAt n rest = some gs) :
    ∃ gs2, searchGroups n (pre ++ rest) = some gs2 := by
  induction pre with
  | nil =>
    cases rest with
    | nil => simp [matchAt] at h
    | cons c cs => exact ⟨gs, by simp [searchGroups, h]⟩
  | cons c pre ih =>
    obtain ⟨gs2, hgs2⟩ := ih
    rw [List.cons_append]
    cases hm : matchAt n (c :: (pre ++ rest)) with
    | some g3 => exact ⟨g3, by simp [searchGroups, hm]⟩
    | none => exact ⟨gs2, by simp [searchGroups, hm, hgs2]⟩

/-- The `n`-group matcher always captures exactly `n` groups. -/
theorem matchGroups_length (n : Nat) :
    ∀ s r, matchGroups n s = some r → r.1.length = n := by
  induction n with
  | zero =>
    intro s r h
    simp only [matchGroups] at h
    obtain rfl := Option.some.inj h
    rfl
  | succ n ih =>
    intro s r h
    simp only [matchGroups] at h
    cases hr : readGroup s with
    | none => simp [hr] at h
    | some p =>
      obtain ⟨w, r2⟩ := p
      rw [hr] at h
      simp only [Option.some_bind] at h
      obtain ⟨q, hq, rfl⟩ := Option.map_eq_some'.mp h
      simp [List.length_cons, ih r2 q hq]

/-- A successful search always captures exactly `n` groups. -/
theorem searchGroups_length (n : Nat) :
    ∀ s gs, searchGroups n s = some gs → gs.length = n := by
  intro s
  induction s with
  | nil => intro gs h; simp [searchGroups] at h
  | cons c cs ih =>
    intro gs h
    simp only [searchGroups] at h
    cases hm : matchAt n (c :: cs) with
    | none =>
      rw [hm] at h
      exact ih gs h
    | some g2 =>
      rw [hm] at h
      obtain rfl := Option.some.inj h
      cases cs with
      | nil => simp [matchAt] at hm
      | cons c2 rest =>
        simp only [matchAt] at hm
        by_cases hc : (c == ':' && (c2 == ':')) = true
        · rw [if_pos hc] at hm
          obtain ⟨p, hp, rfl⟩ := Option.map_eq_some'.mp hm
          exact matchGroups_length n rest p hp
        · rw [if_neg hc] at hm
          cases hm

/-- C3: on any read name containing the double colon followed
immediately by `n` contiguous bracketed groups of non-empty word
characters, anywhere in the string and with arbitrary trailing content,
extraction succeeds and the barcode key is the `n` captured substrings
joined by periods. -/
theorem C3_wellformed_name_extraction (n : Nat) (name : String)
    (pre suff : List Char) (gs : List (List Char))
    (hname : name.data = pre ++ ':' :: ':' :: (encodeGroups gs ++ suff))
    (hlen : gs.length = n)
    (hgs : ∀ g ∈ gs, g ≠ [] ∧ ∀ c ∈ g, isWordChar c = true) :
    ∃ gs2, gs2.length = n ∧ searchGroups n name.data = some gs2 ∧
      extractKey n name =
        some (String.intercalate "." (gs2.map (fun g => String.mk g))) := by
  subst hlen
  have hmatch : matchAt gs.length (':' :: ':' :: (encodeGroups gs ++ suff)) =
      some gs := by
    rw [matchAt_colons, matchGroups_encode gs suff hgs]
    rfl
  obtain ⟨gs2, hgs2⟩ := searchGroups_of_matchAt _ pre _ gs hmatch
  have hsearch : searchGroups gs.length name.data = some gs2 := by
    rw [hname]
    exact hgs2
  refine ⟨gs2, searchGroups_length _ _ gs2 hsearch, hsearch, ?_⟩
  simp [extractKey, hsearch]

/-- Witness for C3: with N=3 the name "readA::[AAA][BBB][CCC] extra"
yields the key "AAA.BBB.CCC". -/
theorem C3_wellformed_name_extraction_witness :
    extractKey 3 "readA::[AAA][BBB][CCC] extra" = some "AAA.BBB.CCC" := by
  obtain ⟨gs2, hlen, hsearch, hkey⟩ :=
    C3_wellformed_name_extraction 3 "readA::[AAA][BBB][CCC] extra"
      (String.data "readA") (String.data " extra")
      [['A','A','A'], ['B','B','B'], ['C','C','C']]
      (by decide) rfl (by decide)
  have hval : searchGroups 3 (String.data "readA::[AAA][BBB][CCC] extra") =
      some [['A','A','A'], ['B','B','B'], ['C','C','C']] := by decide
  rw [hsearch] at hval
  obtain rfl := Option.some.inj hval
  rw [hkey]
  rfl

/-! Claim C9: unmapped records fault at serialization. -/

/-- Some cluster of the table contains the position. -/
def hasPos (t : Clusters) (p : Position) : Prop :=
  ∃ e ∈ t.clusters, p ∈ e.2.positions

/-- Ensuring a key exists never removes a stored position. -/
theorem hasPos_get_cluster (t : Clusters) (k : String) (p : Position)
    (h : hasPos t p) : hasPos (t.get_cluster k).2 p := by
  obtain ⟨e, he, hp⟩ := h
  cases hl : t.clusters.lookup k with
  | some c =>
    refine ⟨e, ?_, hp⟩
    simp only [Clusters.get_cluster, hl]
    exact he
  | none =>
    refine ⟨e, ?_, hp⟩
    simp only [Clusters.get_cluster, hl]
    exact List.mem_append_left _ he

/-- Updating one entry never removes a stored position. -/
theorem hasPos_updateEntry (l : List (String × Cluster)) (k : String)
    (q p : Position) (h : ∃ e ∈ l, p ∈ e.2.positions) :
    ∃ e ∈ updateEntry l k q, p ∈ e.2.positions := by
  obtain ⟨e, he, hp⟩ := h
  by_cases hk : (e.1 == k) = true
  · refine ⟨(e.1, e.2.add_position q), ?_, ?_⟩
    · have hm := List.mem_map_of_mem
        (fun e => if e.1 == k then (e.1, e.2.add_position q) else e) he
      simpa [updateEntry, hk] using hm
    · exact (mem_add_position _ _ _).mpr (Or.inl hp)
  · refine ⟨e, ?_, hp⟩
    have hm := List.mem_map_of_mem
      (fun e => if e.1 == k then (e.1, e.2.add_position q) else e) he
    simpa [updateEntry, hk] using hm

/-- Table insertion preserves previously stored positions. -/
theorem hasPos_add_position (t : Clusters) (k : String) (q p : Position)
    (h : hasPos t p) : hasPos (t.add_position k q) p :=
  hasPos_updateEntry _ _ _ _ (hasPos_get_cluster t k p h)

/-- After `get_cluster`, the key maps to the returned cluster. -/
theorem get_cluster_snd_lookup (t : Clusters) (k : String) :
    (t.get_cluster k).2.clusters.lookup k = some (t.get_cluster k).1 := by
  cases hl : t.clusters.lookup k with
  | some c => simp [Clusters.get_cluster, hl]
  | none =>
    simp only [Clusters.get_cluster, hl]
    rw [lookup_append_of_none _ _ _ hl]
    exact lookup_cons_self _ _ _

/-- Table insertion stores the inserted position. -/
theorem hasPos_add_position_self (t : Clusters) (k : String) (p : Position) :
    hasPos (t.add_position k p) p := by
  have hmem := lookup_mem _ _ _ (get_cluster_snd_lookup t k)
  refine ⟨(k, (t.get_cluster k).1.add_position p), ?_, ?_⟩
  · have hm := List.mem_map_of_mem
      (fun e => if e.1 == k then (e.1, e.2.add_position p) else e) hmem
    simpa [Clusters.add_position, updateEntry] using hm
  · exact (mem_add_position _ _ _).mpr (Or.inr rfl)

/-- A successful run preserves stored positions and stores the position
of every processed record. -/
theorem runRecords_ok (n : Nat) :
    ∀ (recs : List BamRecord) (t tbl : Clusters),
      runRecords n t recs = Except.ok tbl →
      (∀ p, hasPos t p → hasPos tbl p) ∧
      (∀ r ∈ recs, hasPos tbl ⟨r.reference_name, r.reference_start⟩) := by
  intro recs
  induction recs with
  | nil =>
    intro t tbl h
    obtain rfl : t = tbl := by simpa [runRecords] using h
    exact ⟨fun p hp => hp, by simp⟩
  | cons r rest ih =>
    intro t tbl h
    simp only [runRecords] at h
    cases hp : processRecord n t r with
    | error e =>
      rw [hp] at h
      cases h
    | ok t2 =>
      rw [hp] at h
      obtain ⟨hpres, hcov⟩ := ih t2 tbl h
      cases hs : searchGroups n r.query_name.data with
      | none => simp [processRecord, hs] at hp
      | some gs =>
        simp only [processRecord, hs, Except.ok.injEq] at hp
        subst hp
        constructor
        · intro p hpp
          exact hpres p (hasPos_add_position _ _ _ _ hpp)
        · intro r2 hr2
          rcases List.mem_cons.mp hr2 with rfl | hr3
          · exact hpres _ (hasPos_add_position_self _ _ _)
          · exact hcov r2 hr3

/-- An `Option`-propagating map faults as soon as any element faults. -/
theorem mapMo_eq_none_of_mem {α β : Type} (f : α → Option β) {l : List α}
    {a : α} (ha : a ∈ l) (hf : f a = none) : mapMo f l = none := by
  induction l with
  | nil => simp at ha
  | cons x l ih =>
    rcases List.mem_cons.mp ha with rfl | h2
    · simp [mapMo, hf]
    · cases hfx : f x with
      | none => simp [mapMo, hfx]
      | some b => simp [mapMo, hfx, ih h2]

/-- A cluster holding a position with an absent chromosome fails to
render. -/
theorem cluster_render_none {c : Cluster} {p : Position} (hp : p ∈ c.positions)
    (hch : p.chromosome = none) : c.to_string = none := by
  have hps : Position.to_string p = none := by
    simp [Position.to_string, hch]
  simp [Cluster.to_string, mapMo_eq_none_of_mem _ hp hps]

/-- A table storing a position with an absent chromosome fails to
render. -/
theorem to_strings_none {t : Clusters} {p : Position} (h : hasPos t p)
    (hch : p.chromosome = none) : t.to_strings = none := by
  obtain ⟨e, he, hp⟩ := h
  have hline : lineOf e = none := by
    simp [lineOf, cluster_render_none hp hch]
  exact mapMo_eq_none_of_mem _ he hline

/-- C9: a position built from an unmapped record (absent chromosome) is
constructed, compared and hashed without error, but rendering it faults;
consequently any successful clustering run over a stream containing such
a record faults at serialization time, both in `to_strings` and in
`write_clusters_to_file`. -/
theorem C9_unmapped_record_faults_at_serialization (n : Nat)
    (recs : List BamRecord) (tbl : Clusters) (r : BamRecord)
    (hr : r ∈ recs) (hunmapped : r.reference_name = none)
    (hok : get_clusters n recs = Except.ok tbl) :
    Position.py_eq ⟨r.reference_name, r.reference_start⟩
      ⟨r.reference_name, r.reference_start⟩ = true ∧
    Position.py_hash ⟨r.reference_name, r.reference_start⟩ =
      Position.py_hash ⟨r.reference_name, r.reference_start⟩ ∧
    Position.to_string ⟨r.reference_name, r.reference_start⟩ = none ∧
    tbl.to_strings = none ∧
    write_clusters_to_file tbl = none := by
  have hcov := (runRecords_ok n recs Clusters.empty tbl hok).2 r hr
  have hts : tbl.to_strings = none := to_strings_none hcov hunmapped
  refine ⟨?_, rfl, ?_, hts, ?_⟩
  · simp [Position.py_eq]
  · simp [Position.to_string, hunmapped]
  · simp [write_clusters_to_file, hts]

/-- Witness for C9 on a one-record stream whose record is unmapped. -/
theorem C9_unmapped_record_faults_witness :
    Clusters.to_strings ⟨[("AA.BB", ⟨[⟨none, -1⟩]⟩)]⟩ = none ∧
    write_clusters_to_file ⟨[("AA.BB", ⟨[⟨none, -1⟩]⟩)]⟩ = none := by
  have h := C9_unmapped_record_faults_at_serialization 2
    [⟨none, -1, "r1::[AA][BB]"⟩] ⟨[("AA.BB", ⟨[⟨none, -1⟩]⟩)]⟩
    ⟨none, -1, "r1::[AA][BB]"⟩ (List.mem_singleton.mpr rfl) rfl (by rfl)
  exact ⟨h.2.2.2.1, h.2.2.2.2⟩

end Barcoding
